import Mathlib

/-!
Shallow embedding of the 4-card tic-tac-toe poker equity simulator
(`src/main.py`).  Card ranks and suits are integers; numpy int8 values
never leave the range [-113, 14] here, so plain `Int` is a faithful model.
Randomness (`random.choice`) is modelled by an explicit index stream, and
Python exceptions by `Option`.
-/

namespace TTTPoker

/-- `Card`: rank and suit, equality by the pair (src/main.py `Card`). -/
structure Card where
  rank : Int
  suit : Int
deriving DecidableEq, Repr

/-- `Hand.compare` (src/main.py lines 258-268): walk the two ranking arrays
(entrywise; both always have length 6), return 1 / -1 on the first strict
difference, 0 when none. -/
def cmpR : List Int → List Int → Int
  | a :: as, b :: bs => if b < a then 1 else if a < b then -1 else cmpR as bs
  | _, _ => 0

/-- The sort key of `ordered_ranks_counts` (src/main.py line 181):
`(-count, -rank)` lexicographically, i.e. count descending then rank
descending, as a `≤`-style relation on `(rank, count)` pairs. -/
def groupLE (p q : Int × Nat) : Prop :=
  q.2 < p.2 ∨ (p.2 = q.2 ∧ q.1 ≤ p.1)

instance : DecidableRel groupLE := fun p q => by
  unfold groupLE; infer_instance

instance : IsTotal (Int × Nat) groupLE := by
  constructor
  intro p q
  unfold groupLE
  omega

instance : IsTrans (Int × Nat) groupLE := by
  constructor
  intro p q r hpq hqr
  unfold groupLE at *
  omega

instance : IsAntisymm (Int × Nat) groupLE := by
  constructor
  intro p q hpq hqp
  unfold groupLE at *
  have h1 : p.1 = q.1 := by omega
  have h2 : p.2 = q.2 := by omega
  exact Prod.ext h1 h2

/-- The `(rank, count)` pairs of `collections.Counter(cards_ranks).items()`
(src/main.py line 181).  The Counter's iteration order is immaterial because
the subsequent sort key is injective on pairs with distinct ranks. -/
def rank_counts (ranks : List Int) : List (Int × Nat) :=
  ranks.dedup.map fun r => (r, ranks.count r)

/-- `ordered_ranks_counts` (src/main.py lines 180-182): the rank/count pairs
sorted by count descending, then rank descending. -/
def ordered_ranks_counts (ranks : List Int) : List (Int × Nat) :=
  List.insertionSort groupLE (rank_counts ranks)

/-- `ordered_ranks_counts[i, 0]` with an out-of-range default (in the source
every access is in range for genuine 5-card hands). -/
def grpRank (g : List (Int × Nat)) (i : Nat) : Int := (g.getD i (0, 0)).1

/-- `ordered_ranks_counts[i, 1]` with an out-of-range default. -/
def grpCount (g : List (Int × Nat)) (i : Nat) : Nat := (g.getD i (0, 0)).2

/-- The flush test (src/main.py lines 185-189): adjacent suits all equal. -/
def is_flush : List Card → Bool
  | c1 :: c2 :: rest => (c1.suit == c2.suit) && is_flush (c2 :: rest)
  | _ => true

/-- The straight test (src/main.py lines 193-205): `some top` when the hand
is a straight with top card `top`, `none` otherwise.  Requires 5 distinct
ranks; first the `max - min = 4` run, else the configured wheel pattern
(compared against the rank column of the count-then-rank sorted groups),
whose top card is the second-highest rank. -/
def straight_top (wheel : Option (List Int)) (g : List (Int × Nat)) : Option Int :=
  match g with
  | [a, b, c, d, e] =>
    if a.1 - e.1 = 4 then some a.1
    else
      match wheel with
      | some ws => if [a.1, b.1, c.1, d.1, e.1] = ws then some b.1 else none
      | none => none
  | _ => none

/-- First five entries, zero-padded to length 5: models the numpy slice
assignments `hand_ranking[1:6] = ordered_ranks_counts[0:5, 0]` (for genuine
5-card hands the slice always has exactly 5 entries, so the padding never
fires there). -/
def pad5 (l : List Int) : List Int := (l ++ [0, 0, 0, 0, 0]).take 5

/-- `Hand.get_hand_ranking` (src/main.py lines 155-256): the 6-entry ranking
array.  Entry 0 is the category 1-9, entries 1-5 the tiebreak ranks in
comparison order, unused entries 0. -/
def get_hand_ranking (wheel : Option (List Int)) (cards : List Card) : List Int :=
  let ranks := cards.map Card.rank
  let g := ordered_ranks_counts ranks
  match straight_top wheel g, is_flush cards with
  | some s, true => [9, s, 0, 0, 0, 0]
  | none, true => 6 :: pad5 (g.map Prod.fst)
  | some s, false => [5, s, 0, 0, 0, 0]
  | none, false =>
    if grpCount g 0 = 4 then [8, grpRank g 0, grpRank g 1, 0, 0, 0]
    else if grpCount g 0 = 3 then
      if grpCount g 1 = 2 then [7, grpRank g 0, grpRank g 1, 0, 0, 0]
      else [4, grpRank g 0, grpRank g 1, grpRank g 2, 0, 0]
    else if grpCount g 0 = 2 then
      if grpCount g 1 = 2 then [3, grpRank g 0, grpRank g 1, grpRank g 2, 0, 0]
      else [2, grpRank g 0, grpRank g 1, grpRank g 2, grpRank g 3, 0]
    else 1 :: pad5 (g.map Prod.fst)

/-- `WHEEL_RANKS` (src/main.py line 470): wheels enabled, `[14, 5, 4, 3, 2]`. -/
def WHEEL_RANKS : Option (List Int) := some [14, 5, 4, 3, 2]

/-! ### Order-theoretic facts about `cmpR` -/

theorem pad5_length (l : List Int) : (pad5 l).length = 5 := by
  simp [pad5]

theorem get_hand_ranking_length (w : Option (List Int)) (cards : List Card) :
    (get_hand_ranking w cards).length = 6 := by
  simp only [get_hand_ranking]
  split
  · rfl
  · simp [pad5_length]
  · rfl
  · split_ifs <;> simp [pad5_length]

theorem cmpR_nil_left (y : List Int) : cmpR [] y = 0 := by
  cases y <;> rfl

theorem cmpR_self (x : List Int) : cmpR x x = 0 := by
  induction x with
  | nil => rfl
  | cons a as ih => simp [cmpR, ih]

theorem cmpR_cases (x y : List Int) : cmpR x y = 1 ∨ cmpR x y = 0 ∨ cmpR x y = -1 := by
  induction x generalizing y with
  | nil => right; left; exact cmpR_nil_left y
  | cons a as ih =>
    cases y with
    | nil => right; left; rfl
    | cons b bs =>
      by_cases h1 : b < a
      · left; simp [cmpR, h1]
      · by_cases h2 : a < b
        · right; right; simp [cmpR, h1, h2]
        · simpa [cmpR, h1, h2] using ih bs

theorem cmpR_antisymm (x y : List Int) : cmpR y x = -cmpR x y := by
  induction x generalizing y with
  | nil => cases y <;> rfl
  | cons a as ih =>
    cases y with
    | nil => rfl
    | cons b bs =>
      rcases lt_trichotomy a b with h | h | h
      · simp [cmpR, h, not_lt.mpr h.le]
      · subst h; simpa [cmpR] using ih bs
      · simp [cmpR, h, not_lt.mpr h.le]

theorem cmpR_eq_zero_iff (x y : List Int) (h : x.length = y.length) :
    cmpR x y = 0 ↔ x = y := by
  induction x generalizing y with
  | nil =>
    cases y with
    | nil => simp [cmpR_nil_left]
    | cons b bs => simp at h
  | cons a as ih =>
    cases y with
    | nil => simp at h
    | cons b bs =>
      rcases lt_trichotomy a b with h1 | h1 | h1
      · simp [cmpR, h1, not_lt.mpr h1.le, h1.ne]
      · subst h1
        simp only [List.length_cons, Nat.add_right_cancel_iff] at h
        simpa [cmpR] using ih bs h
      · simp [cmpR, h1, h1.ne']

theorem cmpR_trans_one (x y z : List Int) (hxy : x.length = y.length)
    (hyz : y.length = z.length) :
    cmpR x y = 1 → cmpR y z = 1 → cmpR x z = 1 := by
  induction x generalizing y z with
  | nil =>
    cases y with
    | nil => simp [cmpR_nil_left]
    | cons b bs => simp at hxy
  | cons a as ih =>
    cases y with
    | nil => simp at hxy
    | cons b bs =>
      cases z with
      | nil => simp at hyz
      | cons c cs =>
        simp only [List.length_cons, Nat.add_right_cancel_iff] at hxy hyz
        intro h1 h2
        by_cases hba : b < a
        · by_cases hcb : c < b
          · have hca : c < a := hcb.trans hba
            simp [cmpR, hca]
          · by_cases hbc : b < c
            · simp [cmpR, hcb, hbc] at h2
            · have hcb' : c = b := le_antisymm (not_lt.mp hbc) (not_lt.mp hcb)
              subst hcb'
              simp [cmpR, hba]
        · by_cases hab : a < b
          · simp [cmpR, hba, hab] at h1
          · have hab' : a = b := le_antisymm (not_lt.mp hba) (not_lt.mp hab)
            subst hab'
            simp only [cmpR, lt_irrefl, if_false] at h1
            by_cases hca : c < a
            · simp [cmpR, hca]
            · by_cases hac : a < c
              · simp [cmpR, hca, hac] at h2
              · have hca' : c = a := le_antisymm (not_lt.mp hac) (not_lt.mp hca)
                subst hca'
                simp only [cmpR, lt_irrefl, if_false] at h2 ⊢
                exact ih bs cs hxy hyz h1 h2

/-- The `greater-or-tied` reading of `compare`: transitive over equal-length
rankings. -/
theorem cmpR_ge_trans (x y z : List Int) (hxy : x.length = y.length)
    (hyz : y.length = z.length) :
    cmpR x y ≠ -1 → cmpR y z ≠ -1 → cmpR x z ≠ -1 := by
  intro h1 h2
  have e1 : cmpR x y = 1 ∨ x = y := by
    rcases cmpR_cases x y with h | h | h
    · exact Or.inl h
    · exact Or.inr ((cmpR_eq_zero_iff x y hxy).mp h)
    · exact absurd h h1
  have e2 : cmpR y z = 1 ∨ y = z := by
    rcases cmpR_cases y z with h | h | h
    · exact Or.inl h
    · exact Or.inr ((cmpR_eq_zero_iff y z hyz).mp h)
    · exact absurd h h2
  rcases e1 with h1' | rfl
  · rcases e2 with h2' | rfl
    · simp [cmpR_trans_one x y z hxy hyz h1' h2']
    · simp [h1']
  · exact h2

/-! ### Claims C2 and C4 -/

/-- Claim C2, as frozen, is false at its own third exemplar: with the wheel
enabled on a full 52-card deck, the hand 7c 5d 4h 3s 2c is scored as
category 1 (high card, 7-5-4-3-2), not as a category-5 straight with top
rank 5 — the ranks 7,5,4,3,2 neither form a run (max−min = 5) nor match the
wheel pattern {A,5,4,3,2}. -/
theorem c2_counterexample :
    get_hand_ranking WHEEL_RANKS [⟨7, 1⟩, ⟨5, 2⟩, ⟨4, 3⟩, ⟨3, 4⟩, ⟨2, 1⟩] =
      [1, 7, 5, 4, 3, 2] ∧
    get_hand_ranking WHEEL_RANKS [⟨7, 1⟩, ⟨5, 2⟩, ⟨4, 3⟩, ⟨3, 4⟩, ⟨2, 1⟩] ≠
      [5, 5, 0, 0, 0, 0] := by
  constructor
  · decide
  · decide

/-- Claim C2 (amended): for the fixed exemplar 5-card hands,
`get_hand_ranking` returns the stated key: As Ks Qs Js Ts yields category 9
with top rank 14; 5h 5d 5c 2s 2h yields category 7 with tiebreaks (5, 2);
and, with the wheel enabled on a full 52-card deck, the wheel hand
Ac 5d 4h 3s 2c (not 7c 5d 4h 3s 2c, which is a 7-high high card) yields
category 5 with top rank 5 (not 14). -/
theorem c2_exemplar_rankings :
    get_hand_ranking WHEEL_RANKS [⟨14, 4⟩, ⟨13, 4⟩, ⟨12, 4⟩, ⟨11, 4⟩, ⟨10, 4⟩] =
      [9, 14, 0, 0, 0, 0] ∧
    get_hand_ranking WHEEL_RANKS [⟨5, 3⟩, ⟨5, 2⟩, ⟨5, 1⟩, ⟨2, 4⟩, ⟨2, 3⟩] =
      [7, 5, 2, 0, 0, 0] ∧
    get_hand_ranking WHEEL_RANKS [⟨14, 1⟩, ⟨5, 2⟩, ⟨4, 3⟩, ⟨3, 4⟩, ⟨2, 1⟩] =
      [5, 5, 0, 0, 0, 0] ∧
    get_hand_ranking WHEEL_RANKS [⟨7, 1⟩, ⟨5, 2⟩, ⟨4, 3⟩, ⟨3, 4⟩, ⟨2, 1⟩] =
      [1, 7, 5, 4, 3, 2] := by
  refine ⟨by decide, by decide, by decide, by decide⟩

/-- Claim C4: `Hand.compare` is a total order on ranking keys.  For all
5-card hands A, B, C (any card lists: every computed ranking key has length
6), the comparison returns exactly one of 1, 0, -1; it is antisymmetric
(`compare A B = -compare B A`, `compare A A = 0`); it is transitive on
strict wins, and ties compose. -/
theorem c4_compare_total_order (wheel : Option (List Int)) (a b c : List Card) :
    (cmpR (get_hand_ranking wheel a) (get_hand_ranking wheel b) = 1 ∨
      cmpR (get_hand_ranking wheel a) (get_hand_ranking wheel b) = 0 ∨
      cmpR (get_hand_ranking wheel a) (get_hand_ranking wheel b) = -1) ∧
    cmpR (get_hand_ranking wheel b) (get_hand_ranking wheel a) =
      -cmpR (get_hand_ranking wheel a) (get_hand_ranking wheel b) ∧
    cmpR (get_hand_ranking wheel a) (get_hand_ranking wheel a) = 0 ∧
    (cmpR (get_hand_ranking wheel a) (get_hand_ranking wheel b) = 1 →
      cmpR (get_hand_ranking wheel b) (get_hand_ranking wheel c) = 1 →
      cmpR (get_hand_ranking wheel a) (get_hand_ranking wheel c) = 1) ∧
    (cmpR (get_hand_ranking wheel a) (get_hand_ranking wheel b) = 0 →
      cmpR (get_hand_ranking wheel b) (get_hand_ranking wheel c) = 0 →
      cmpR (get_hand_ranking wheel a) (get_hand_ranking wheel c) = 0) := by
  have hab : (get_hand_ranking wheel a).length = (get_hand_ranking wheel b).length := by
    rw [get_hand_ranking_length, get_hand_ranking_length]
  have hbc : (get_hand_ranking wheel b).length = (get_hand_ranking wheel c).length := by
    rw [get_hand_ranking_length, get_hand_ranking_length]
  refine ⟨cmpR_cases _ _, cmpR_antisymm _ _, cmpR_self _, ?_, ?_⟩
  · exact cmpR_trans_one _ _ _ hab hbc
  · intro h1 h2
    have e1 := (cmpR_eq_zero_iff _ _ hab).mp h1
    have e2 := (cmpR_eq_zero_iff _ _ hbc).mp h2
    rw [e1, e2, cmpR_self]

/-! ### Best-hand selection (src/main.py `Player`, `Board`) -/

/-- `Player.generate_hole_cards_combos` (src/main.py lines 114-123) for the
configured `NUM_HOLE_CARDS = 4`: the C(4,2) = 6 two-card combinations, in
`itertools.combinations` order. -/
def generate_hole_cards_combos (h0 h1 h2 h3 : Card) : List (List Card) :=
  [[h0, h1], [h0, h2], [h0, h3], [h1, h2], [h1, h3], [h2, h3]]

/-- `Board.generate_board_combos` (src/main.py lines 86-97): the 8 straight
lines of the filled 3x3 board — 3 rows, 3 columns, main diagonal,
anti-diagonal. -/
def generate_board_combos (b00 b01 b02 b10 b11 b12 b20 b21 b22 : Card) :
    List (List Card) :=
  [[b00, b01, b02], [b10, b11, b12], [b20, b21, b22],
   [b00, b10, b20], [b01, b11, b21], [b02, b12, b22],
   [b00, b11, b22], [b02, b11, b20]]

/-- The candidate 5-card hands of `Player.generate_showdown_hand`
(src/main.py lines 132-135): for each board line, for each hole-card pair,
the pair concatenated with the line. -/
def showdown_candidates (holeCombos boardCombos : List (List Card)) :
    List (List Card) :=
  boardCombos.flatMap fun bc => holeCombos.map fun hc => hc ++ bc

/-- The loop body of `Player.generate_showdown_hand` (src/main.py line 136):
keep the current hand when there is no best yet or it strictly beats the
best. -/
def pick_better (wheel : Option (List Int)) (best : Option (List Card))
    (cur : List Card) : Option (List Card) :=
  match best with
  | none => some cur
  | some b =>
    if cmpR (get_hand_ranking wheel cur) (get_hand_ranking wheel b) = 1 then some cur
    else some b

/-- `Player.generate_showdown_hand` (src/main.py lines 125-138). -/
def generate_showdown_hand (wheel : Option (List Int))
    (holeCombos boardCombos : List (List Card)) : Option (List Card) :=
  (showdown_candidates holeCombos boardCombos).foldl (pick_better wheel) none

theorem cmpR_ge_of_not_one {x y : List Int} (h : cmpR x y ≠ 1) : cmpR y x ≠ -1 := by
  have ha := cmpR_antisymm x y
  rcases cmpR_cases x y with h1 | h1 | h1 <;> omega

theorem pick_better_fold (wheel : Option (List Int)) (l : List (List Card)) :
    ∀ b : List Card,
      ∃ r, l.foldl (pick_better wheel) (some b) = some r ∧ (r = b ∨ r ∈ l) ∧
        cmpR (get_hand_ranking wheel r) (get_hand_ranking wheel b) ≠ -1 ∧
        ∀ c ∈ l, cmpR (get_hand_ranking wheel r) (get_hand_ranking wheel c) ≠ -1 := by
  induction l with
  | nil =>
    intro b
    exact ⟨b, rfl, Or.inl rfl, by simp [cmpR_self], by simp⟩
  | cons c rest ih =>
    intro b
    have hlen : ∀ u v : List Card,
        (get_hand_ranking wheel u).length = (get_hand_ranking wheel v).length := by
      intro u v; rw [get_hand_ranking_length, get_hand_ranking_length]
    by_cases h : cmpR (get_hand_ranking wheel c) (get_hand_ranking wheel b) = 1
    · obtain ⟨r, hr, hmem, hge, hall⟩ := ih c
      refine ⟨r, ?_, ?_, ?_, ?_⟩
      · simpa [pick_better, h] using hr
      · rcases hmem with rfl | hm
        · exact Or.inr (List.mem_cons_self _ _)
        · exact Or.inr (List.mem_cons_of_mem _ hm)
      · exact cmpR_ge_trans _ _ _ (hlen r c) (hlen c b) hge (by simp [h])
      · intro d hd
        rcases List.mem_cons.mp hd with rfl | hd'
        · exact hge
        · exact hall d hd'
    · obtain ⟨r, hr, hmem, hge, hall⟩ := ih b
      refine ⟨r, ?_, ?_, ?_, ?_⟩
      · simpa [pick_better, h] using hr
      · rcases hmem with rfl | hm
        · exact Or.inl rfl
        · exact Or.inr (List.mem_cons_of_mem _ hm)
      · exact hge
      · intro d hd
        rcases List.mem_cons.mp hd with rfl | hd'
        · exact cmpR_ge_trans _ _ _ (hlen r b) (hlen b d) hge (cmpR_ge_of_not_one h)
        · exact hall d hd'

theorem pick_better_fold_of_ne_nil (wheel : Option (List Int))
    (l : List (List Card)) (hne : l ≠ []) :
    ∃ r, l.foldl (pick_better wheel) none = some r ∧ r ∈ l ∧
      ∀ c ∈ l, cmpR (get_hand_ranking wheel r) (get_hand_ranking wheel c) ≠ -1 := by
  cases l with
  | nil => exact absurd rfl hne
  | cons c rest =>
    obtain ⟨r, hr, hmem, hge, hall⟩ := pick_better_fold wheel rest c
    refine ⟨r, ?_, ?_, ?_⟩
    · simpa [pick_better] using hr
    · rcases hmem with rfl | hm
      · exact List.mem_cons_self _ _
      · exact List.mem_cons_of_mem _ hm
    · intro d hd
      rcases List.mem_cons.mp hd with rfl | hd'
      · exact hge
      · exact hall d hd'

/-- Claim C5: for every player with 4 concrete hole cards and every
fully-concrete 3x3 board, `generate_showdown_hand` enumerates all
C(4,2) = 6 hole-card pairs times 8 board lines = 48 candidate 5-card hands
and produces one of them whose ranking key compares 1 or 0 against the key
of every one of the 48 candidates. -/
theorem c5_showdown_hand_maximal (wheel : Option (List Int))
    (h0 h1 h2 h3 b00 b01 b02 b10 b11 b12 b20 b21 b22 : Card) :
    (showdown_candidates (generate_hole_cards_combos h0 h1 h2 h3)
      (generate_board_combos b00 b01 b02 b10 b11 b12 b20 b21 b22)).length = 48 ∧
    ∃ best,
      generate_showdown_hand wheel (generate_hole_cards_combos h0 h1 h2 h3)
        (generate_board_combos b00 b01 b02 b10 b11 b12 b20 b21 b22) = some best ∧
      best ∈ showdown_candidates (generate_hole_cards_combos h0 h1 h2 h3)
        (generate_board_combos b00 b01 b02 b10 b11 b12 b20 b21 b22) ∧
      ∀ c ∈ showdown_candidates (generate_hole_cards_combos h0 h1 h2 h3)
        (generate_board_combos b00 b01 b02 b10 b11 b12 b20 b21 b22),
        cmpR (get_hand_ranking wheel best) (get_hand_ranking wheel c) = 1 ∨
        cmpR (get_hand_ranking wheel best) (get_hand_ranking wheel c) = 0 := by
  constructor
  · rfl
  · obtain ⟨r, hr, hmem, hall⟩ := pick_better_fold_of_ne_nil wheel
      (showdown_candidates (generate_hole_cards_combos h0 h1 h2 h3)
        (generate_board_combos b00 b01 b02 b10 b11 b12 b20 b21 b22))
      (by simp [showdown_candidates, generate_hole_cards_combos, generate_board_combos])
    refine ⟨r, hr, hmem, fun c hc => ?_⟩
    have := hall c hc
    rcases cmpR_cases (get_hand_ranking wheel r) (get_hand_ranking wheel c) with
      h | h | h
    · exact Or.inl h
    · exact Or.inr h
    · exact absurd h this

/-! ### Showdown (src/main.py `Trial.run`, lines 352-361) -/

/-- A player at showdown: player number and the ranking array of the best
(showdown) hand. -/
structure PlayerR where
  player_num : Nat
  ranking : List Int
deriving DecidableEq, Repr

/-- The showdown loop of `Trial.run` (src/main.py lines 354-360):
`w :: ws` is the current `winning_players` array (`w` its first element);
a strictly better player replaces it, a tie is appended, a worse player is
skipped. -/
def showdown_go (w : PlayerR) (ws : List PlayerR) : List PlayerR → List PlayerR
  | [] => w :: ws
  | q :: rest =>
    if cmpR q.ranking w.ranking = 1 then showdown_go q [] rest
    else if cmpR q.ranking w.ranking = 0 then showdown_go w (ws ++ [q]) rest
    else showdown_go w ws rest

/-- The showdown of `Trial.run` (src/main.py lines 352-361):
`winning_players` starts as `[players[0]]` and the loop runs over the rest.
The source indexes `players[0]`, so the empty case never occurs there. -/
def trial_showdown : List PlayerR → List PlayerR
  | [] => []
  | p :: rest => showdown_go p [] rest

theorem showdown_go_spec : ∀ (rest : List PlayerR) (w : PlayerR) (ws : List PlayerR),
    (∀ p, (p = w ∨ p ∈ ws ∨ p ∈ rest) → p.ranking.length = 6) →
    (∀ y ∈ ws, y.ranking = w.ranking) →
    showdown_go w ws rest ≠ [] ∧
      ∀ x, x ∈ showdown_go w ws rest ↔
        (x = w ∨ x ∈ ws ∨ x ∈ rest) ∧
        ∀ q, (q = w ∨ q ∈ ws ∨ q ∈ rest) → cmpR x.ranking q.ranking ≠ -1 := by
  intro rest
  induction rest with
  | nil =>
    intro w ws hlen hinv
    refine ⟨by simp [showdown_go], fun x => ?_⟩
    simp only [showdown_go, List.mem_cons, List.not_mem_nil, or_false]
    constructor
    · intro hx
      refine ⟨hx, fun q hq => ?_⟩
      have hx' : x.ranking = w.ranking := by
        rcases hx with rfl | hx'
        · rfl
        · exact hinv x hx'
      have hq' : q.ranking = w.ranking := by
        rcases hq with rfl | hq'
        · rfl
        · exact hinv q hq'
      rw [hx', hq', cmpR_self]
      decide
    · exact fun h => h.1
  | cons q rest ih =>
    intro w ws hlen hinv
    have hlen_w : w.ranking.length = 6 := hlen w (Or.inl rfl)
    have hlen_q : q.ranking.length = 6 :=
      hlen q (Or.inr (Or.inr (List.mem_cons_self _ _)))
    by_cases h1 : cmpR q.ranking w.ranking = 1
    · have hlen' : ∀ p, (p = q ∨ p ∈ ([] : List PlayerR) ∨ p ∈ rest) →
          p.ranking.length = 6 := by
        intro p hp
        apply hlen p
        rcases hp with rfl | hp | hp
        · exact Or.inr (Or.inr (List.mem_cons_self _ _))
        · exact absurd hp (List.not_mem_nil _)
        · exact Or.inr (Or.inr (List.mem_cons_of_mem _ hp))
      obtain ⟨hne, hchar⟩ := ih q [] hlen' (by simp)
      have hstep : showdown_go w ws (q :: rest) = showdown_go q [] rest := by
        simp [showdown_go, h1]
      refine ⟨hstep ▸ hne, fun x => ?_⟩
      rw [hstep, hchar x]
      constructor
      · rintro ⟨hx, hall⟩
        have hgeq : cmpR x.ranking q.ranking ≠ -1 := hall q (Or.inl rfl)
        have hxlen : x.ranking.length = 6 := hlen' x hx
        have hgew : cmpR x.ranking w.ranking ≠ -1 :=
          cmpR_ge_trans _ _ _ (by omega) (by omega) hgeq (by omega)
        refine ⟨?_, fun p hp => ?_⟩
        · rcases hx with rfl | hx2 | hx2
          · exact Or.inr (Or.inr (List.mem_cons_self _ _))
          · exact absurd hx2 (List.not_mem_nil _)
          · exact Or.inr (Or.inr (List.mem_cons_of_mem _ hx2))
        · rcases hp with rfl | hp | hp
          · exact hgew
          · rw [hinv p hp]
            exact hgew
          · rcases List.mem_cons.mp hp with rfl | hp2
            · exact hgeq
            · exact hall p (Or.inr (Or.inr hp2))
      · rintro ⟨hx, hall⟩
        have hxq : cmpR x.ranking q.ranking ≠ -1 :=
          hall q (Or.inr (Or.inr (List.mem_cons_self _ _)))
        have hnw : ¬(x = w ∨ x ∈ ws) := by
          intro hyp
          have hxw : x.ranking = w.ranking := by
            rcases hyp with rfl | h
            · rfl
            · exact hinv x h
          apply hxq
          rw [hxw]
          have := cmpR_antisymm q.ranking w.ranking
          omega
        have hx' : x = q ∨ x ∈ rest := by
          rcases hx with rfl | hx2 | hx2
          · exact absurd (Or.inl rfl) hnw
          · exact absurd (Or.inr hx2) hnw
          · rcases List.mem_cons.mp hx2 with rfl | h2
            · exact Or.inl rfl
            · exact Or.inr h2
        refine ⟨?_, fun p hp => ?_⟩
        · rcases hx' with rfl | h
          · exact Or.inl rfl
          · exact Or.inr (Or.inr h)
        · apply hall p
          rcases hp with rfl | hp | hp
          · exact Or.inr (Or.inr (List.mem_cons_self _ _))
          · exact absurd hp (List.not_mem_nil _)
          · exact Or.inr (Or.inr (List.mem_cons_of_mem _ hp))
    · by_cases h0 : cmpR q.ranking w.ranking = 0
      · have hqw : q.ranking = w.ranking :=
          (cmpR_eq_zero_iff _ _ (by omega)).mp h0
        have hlen' : ∀ p, (p = w ∨ p ∈ ws ++ [q] ∨ p ∈ rest) →
            p.ranking.length = 6 := by
          intro p hp
          apply hlen p
          rcases hp with rfl | hp | hp
          · exact Or.inl rfl
          · rcases List.mem_append.mp hp with h | h
            · exact Or.inr (Or.inl h)
            · rw [List.mem_singleton.mp h]
              exact Or.inr (Or.inr (List.mem_cons_self _ _))
          · exact Or.inr (Or.inr (List.mem_cons_of_mem _ hp))
        have hinv' : ∀ y ∈ ws ++ [q], y.ranking = w.ranking := by
          intro y hy
          rcases List.mem_append.mp hy with h | h
          · exact hinv y h
          · rw [List.mem_singleton.mp h]
            exact hqw
        obtain ⟨hne, hchar⟩ := ih w (ws ++ [q]) hlen' hinv'
        have hstep : showdown_go w ws (q :: rest) = showdown_go w (ws ++ [q]) rest := by
          simp [showdown_go, h1, h0]
        refine ⟨hstep ▸ hne, fun x => ?_⟩
        rw [hstep, hchar x]
        have hsame : ∀ p : PlayerR,
            (p = w ∨ p ∈ ws ++ [q] ∨ p ∈ rest) ↔ (p = w ∨ p ∈ ws ∨ p ∈ q :: rest) := by
          intro p
          simp only [List.mem_append, List.mem_singleton, List.mem_cons]
          tauto
        constructor
        · rintro ⟨hx, hall⟩
          exact ⟨(hsame x).mp hx, fun p hp => hall p ((hsame p).mpr hp)⟩
        · rintro ⟨hx, hall⟩
          exact ⟨(hsame x).mpr hx, fun p hp => hall p ((hsame p).mp hp)⟩
      · have hm1 : cmpR q.ranking w.ranking = -1 := by
          rcases cmpR_cases q.ranking w.ranking with h | h | h <;> tauto
        have hlen' : ∀ p, (p = w ∨ p ∈ ws ∨ p ∈ rest) → p.ranking.length = 6 := by
          intro p hp
          apply hlen p
          rcases hp with rfl | hp | hp
          · exact Or.inl rfl
          · exact Or.inr (Or.inl hp)
          · exact Or.inr (Or.inr (List.mem_cons_of_mem _ hp))
        obtain ⟨hne, hchar⟩ := ih w ws hlen' hinv
        have hstep : showdown_go w ws (q :: rest) = showdown_go w ws rest := by
          simp [showdown_go, h1, h0]
        refine ⟨hstep ▸ hne, fun x => ?_⟩
        rw [hstep, hchar x]
        constructor
        · rintro ⟨hx, hall⟩
          have hgew : cmpR x.ranking w.ranking ≠ -1 := hall w (Or.inl rfl)
          have hxlen : x.ranking.length = 6 := hlen' x hx
          have hwq : cmpR w.ranking q.ranking ≠ -1 := by
            have := cmpR_antisymm q.ranking w.ranking
            omega
          have hgeq : cmpR x.ranking q.ranking ≠ -1 :=
            cmpR_ge_trans _ _ _ (by omega) (by omega) hgew hwq
          refine ⟨?_, fun p hp => ?_⟩
          · rcases hx with rfl | h | h
            · exact Or.inl rfl
            · exact Or.inr (Or.inl h)
            · exact Or.inr (Or.inr (List.mem_cons_of_mem _ h))
          · rcases hp with rfl | h | h
            · exact hgew
            · exact hall p (Or.inr (Or.inl h))
            · rcases List.mem_cons.mp h with rfl | h2
              · exact hgeq
              · exact hall p (Or.inr (Or.inr h2))
        · rintro ⟨hx, hall⟩
          have hgew : cmpR x.ranking w.ranking ≠ -1 := hall w (Or.inl rfl)
          have hxq : x ≠ q := by
            rintro rfl
            exact hgew hm1
          refine ⟨?_, fun p hp => hall p ?_⟩
          · rcases hx with rfl | h | h
            · exact Or.inl rfl
            · exact Or.inr (Or.inl h)
            · rcases List.mem_cons.mp h with rfl | h2
              · exact absurd rfl hxq
              · exact Or.inr (Or.inr h2)
          · rcases hp with rfl | h | h
            · exact Or.inl rfl
            · exact Or.inr (Or.inl h)
            · exact Or.inr (Or.inr (List.mem_cons_of_mem _ h))

/-- Claim C6: for every non-empty list of players at showdown (each ranking
computed by the evaluator, hence of length 6), `Trial.run`'s showdown loop
returns exactly the set of players whose best-hand ranking key is maximal —
every player tying the maximal key is included, no other player is — and
this winner set is non-empty. -/
theorem c6_trial_winners (players : List PlayerR) (hne : players ≠ [])
    (hlen : ∀ p ∈ players, p.ranking.length = 6) :
    trial_showdown players ≠ [] ∧
    ∀ x, x ∈ trial_showdown players ↔
      x ∈ players ∧ ∀ q ∈ players, cmpR x.ranking q.ranking ≠ -1 := by
  cases players with
  | nil => exact absurd rfl hne
  | cons p rest =>
    obtain ⟨hgo, hchar⟩ := showdown_go_spec rest p []
      (by
        intro x hx
        apply hlen x
        rcases hx with rfl | h | h
        · exact List.mem_cons_self _ _
        · exact absurd h (List.not_mem_nil _)
        · exact List.mem_cons_of_mem _ h)
      (by simp)
    refine ⟨hgo, fun x => ?_⟩
    rw [show trial_showdown (p :: rest) = showdown_go p [] rest from rfl, hchar x]
    constructor
    · rintro ⟨hx, hall⟩
      refine ⟨?_, fun q hq => ?_⟩
      · rcases hx with rfl | h | h
        · exact List.mem_cons_self _ _
        · exact absurd h (List.not_mem_nil _)
        · exact List.mem_cons_of_mem _ h
      · apply hall q
        rcases List.mem_cons.mp hq with rfl | h
        · exact Or.inl rfl
        · exact Or.inr (Or.inr h)
    · rintro ⟨hx, hall⟩
      refine ⟨?_, fun q hq => ?_⟩
      · rcases List.mem_cons.mp hx with rfl | h
        · exact Or.inl rfl
        · exact Or.inr (Or.inr h)
      · apply hall q
        rcases hq with rfl | h | h
        · exact List.mem_cons_self _ _
        · exact absurd h (List.not_mem_nil _)
        · exact List.mem_cons_of_mem _ h

/-- Claim C6 witness: two players, the second with the strictly better key;
the winner set is exactly the second player. -/
theorem c6_trial_winners_witness :
    trial_showdown [⟨1, [1, 10, 0, 0, 0, 0]⟩, ⟨2, [2, 5, 0, 0, 0, 0]⟩] ≠ [] ∧
    ∀ x, x ∈ trial_showdown [⟨1, [1, 10, 0, 0, 0, 0]⟩, ⟨2, [2, 5, 0, 0, 0, 0]⟩] ↔
      x ∈ [⟨1, [1, 10, 0, 0, 0, 0]⟩, ⟨2, [2, 5, 0, 0, 0, 0]⟩] ∧
      ∀ q ∈ ([⟨1, [1, 10, 0, 0, 0, 0]⟩, ⟨2, [2, 5, 0, 0, 0, 0]⟩] : List PlayerR),
        cmpR x.ranking q.ranking ≠ -1 :=
  c6_trial_winners [⟨1, [1, 10, 0, 0, 0, 0]⟩, ⟨2, [2, 5, 0, 0, 0, 0]⟩]
    (by decide) (by decide)

/-! ### Equity accumulation (src/main.py `Question.answer`, lines 301-318) -/

/-- The accumulation loop of `Question.answer` (src/main.py lines 306-312)
and its return value, in exact arithmetic: `results` starts at zeros, and
for each trial every winner `p` (a 1-based player number) receives
`1 / len(trial_winners)`; the function returns the accumulator array as is
(the division by `num_trials` happens only in the `print` on line 316).
Winner lists are non-empty in every real trial, so the `1 / 0` of an empty
winner list never occurs there. -/
def answer_results (num_players : Nat) (trial_winners : List (List Nat)) : List ℚ :=
  trial_winners.foldl
    (fun results winners =>
      winners.foldl
        (fun res p => res.set (p - 1) (res.getD (p - 1) 0 + 1 / (winners.length : ℚ)))
        results)
    (List.replicate num_players 0)

/-- Claim C1 is false of the returned value: `Question.answer()` returns the
raw accumulated win credits, NOT the credits divided by the trial count N.
With 2 players and N = 2 trials both won outright by player 1, the returned
array is [2, 0] — its first entry is outside [0, 1] and the entries sum to
N = 2, not 1 — whereas the claim (and the method's own docstring, which
promises each player's equity) requires [1, 0].  A shared win still
distributes exactly 1/k per winner within the accumulator, as the third
conjunct shows. -/
theorem c1_answer_returns_credits_not_equity :
    answer_results 2 [[1], [1]] = [2, 0] ∧
    answer_results 2 [[1], [1]] ≠ [1, 0] ∧
    answer_results 2 [[1, 2]] = [1 / 2, 1 / 2] := by
  refine ⟨?_, ?_, ?_⟩ <;>
    norm_num [answer_results, List.foldl, List.getD, List.replicate, List.set]

/-! ### Deck (src/main.py `Deck`, lines 34-72) -/

/-- `RANK_NAMES` (src/main.py line 460): rank character, `none` outside the
table (a missing key raises in Python). -/
def RANK_NAMES : Int → Option String := fun r =>
  if r = 14 then some ("A") else if r = 13 then some ("K")
  else if r = 12 then some ("Q") else if r = 11 then some ("J")
  else if r = 10 then some ("T") else if r = 9 then some ("9")
  else if r = 8 then some ("8") else if r = 7 then some ("7")
  else if r = 6 then some ("6") else if r = 5 then some ("5")
  else if r = 4 then some ("4") else if r = 3 then some ("3")
  else if r = 2 then some ("2") else none

/-- `SUIT_NAMES` (src/main.py line 462). -/
def SUIT_NAMES : Int → Option String := fun s =>
  if s = 4 then some ("s") else if s = 3 then some ("h")
  else if s = 2 then some ("d") else if s = 1 then some ("c")
  else none

/-- `Card.name` (src/main.py lines 28-31): rank character followed by suit
character. -/
def Card.name (c : Card) : Option String :=
  match RANK_NAMES c.rank, SUIT_NAMES c.suit with
  | some r, some s => some (r ++ s)
  | _, _ => none

/-- `Deck.__init__` (src/main.py lines 39-50): for each suit 1..num_suits,
the ranks `15 - num_ranks .. 14`, in that nesting order. -/
def deck_init (num_ranks num_suits : Nat) : List Card :=
  (List.range num_suits).flatMap fun (i : Nat) =>
    (List.range num_ranks).map fun (j : Nat) =>
      ⟨15 - (num_ranks : Int) + (j : Int), (i : Int) + 1⟩

/-- `Deck.pick` (src/main.py lines 55-62): scan for the first card with the
given name; remove and return it, `none` (the raised exception) when no card
matches. -/
def Deck.pick : List Card → String → Option (Card × List Card)
  | [], _ => none
  | c :: rest, n =>
    if Card.name c = some n then some (c, rest)
    else
      match Deck.pick rest n with
      | some (r, d) => some (r, c :: d)
      | none => none

/-- `Deck.deal` (src/main.py lines 64-72): remove and return the card at a
random index when the deck is non-empty, `none` (the raised exception) when
it is empty.  `random.choice(range(len))` is modelled by the adversarial
index `k % length`. -/
def Deck.deal (cards : List Card) (k : Nat) : Option (Card × List Card) :=
  if h : 0 < cards.length then
    some (cards.get ⟨k % cards.length, Nat.mod_lt _ h⟩,
      cards.eraseIdx (k % cards.length))
  else none

/-- One deck operation: `pick` of a named card, or `deal` at a random
index. -/
inductive DeckOp where
  | pickOp (n : String)
  | dealOp (k : Nat)

/-- Run one operation on the deck. -/
def runOp (cards : List Card) : DeckOp → Option (Card × List Card)
  | .pickOp n => Deck.pick cards n
  | .dealOp k => Deck.deal cards k

/-- Run a sequence of operations; `some (deck, removed)` when all succeed,
with `removed` the removed cards in order. -/
def runOps : List Card → List DeckOp → Option (List Card × List Card)
  | cards, [] => some (cards, [])
  | cards, op :: ops =>
    match runOp cards op with
    | none => none
    | some (c, d) =>
      match runOps d ops with
      | none => none
      | some (d', rem) => some (d', c :: rem)

theorem deal_none_iff (cards : List Card) (k : Nat) :
    Deck.deal cards k = none ↔ cards = [] := by
  unfold Deck.deal
  split
  case isTrue hpos =>
    simp only [reduceCtorEq, false_iff]
    intro hnil
    subst hnil
    simp at hpos
  case isFalse hpos =>
    simp only [true_iff]
    exact List.length_eq_zero.mp (by omega)


theorem deal_some_spec {cards : List Card} {k : Nat} {c : Card} {d : List Card}
    (h : Deck.deal cards k = some (c, d)) :
    c ∈ cards ∧ cards.Perm (c :: d) ∧ d.length + 1 = cards.length := by
  unfold Deck.deal at h
  split at h
  case isTrue hpos =>
    simp only [Option.some.injEq, Prod.mk.injEq] at h
    obtain ⟨rfl, rfl⟩ := h
    have hmem : cards.get ⟨k % cards.length, Nat.mod_lt _ hpos⟩ ∈ cards :=
      List.get_mem _ _ _
    have h1 := List.perm_cons_erase hmem
    have h2 := List.erase_getElem (l := cards) (i := k % cards.length)
      (Nat.mod_lt _ hpos)
    refine ⟨hmem, h1.trans (h2.cons _), ?_⟩
    exact List.length_eraseIdx_add_one (Nat.mod_lt _ hpos)
  case isFalse => simp at h

theorem pick_none_iff : ∀ (cards : List Card) (n : String),
    Deck.pick cards n = none ↔ ∀ c ∈ cards, Card.name c ≠ some n := by
  intro cards n
  induction cards with
  | nil => simp [Deck.pick]
  | cons a rest ih =>
    by_cases ha : Card.name a = some n
    · simp only [Deck.pick, if_pos ha]
      constructor
      · intro h
        simp at h
      · intro h
        exact absurd ha (h a (List.mem_cons_self _ _))
    · simp only [Deck.pick, if_neg ha]
      cases hrec : Deck.pick rest n with
      | none =>
        simp only [reduceCtorEq, true_iff]
        intro c hc
        rcases List.mem_cons.mp hc with rfl | hc'
        · exact ha
        · exact (ih.mp hrec) c hc'
      | some rd =>
        obtain ⟨r, d⟩ := rd
        simp only [reduceCtorEq, false_iff]
        intro hall
        have hall' : ∀ c ∈ rest, Card.name c ≠ some n := fun c hc =>
          hall c (List.mem_cons_of_mem _ hc)
        rw [← ih] at hall'
        rw [hall'] at hrec
        exact absurd hrec (by simp)

theorem pick_some_spec : ∀ (cards : List Card) (n : String) (c : Card)
    (d : List Card), Deck.pick cards n = some (c, d) →
    Card.name c = some n ∧ c ∈ cards ∧ cards.Perm (c :: d) := by
  intro cards n
  induction cards with
  | nil => intro c d h; simp [Deck.pick] at h
  | cons a rest ih =>
    intro c d h
    by_cases ha : Card.name a = some n
    · simp only [Deck.pick, if_pos ha, Option.some.injEq, Prod.mk.injEq] at h
      obtain ⟨rfl, rfl⟩ := h
      exact ⟨ha, List.mem_cons_self _ _, List.Perm.refl _⟩
    · simp only [Deck.pick, if_neg ha] at h
      cases hrec : Deck.pick rest n with
      | none => rw [hrec] at h; simp at h
      | some rd =>
        obtain ⟨r, d'⟩ := rd
        rw [hrec] at h
        simp only [Option.some.injEq, Prod.mk.injEq] at h
        obtain ⟨rfl, rfl⟩ := h
        obtain ⟨h1, h2, h3⟩ := ih r d' hrec
        refine ⟨h1, List.mem_cons_of_mem _ h2, ?_⟩
        exact (h3.cons a).trans (List.Perm.swap r a d')

theorem runOps_some_perm : ∀ (ops : List DeckOp) (cards d rem : List Card),
    runOps cards ops = some (d, rem) → cards.Perm (rem ++ d) := by
  intro ops
  induction ops with
  | nil =>
    intro cards d rem h
    simp only [runOps, Option.some.injEq, Prod.mk.injEq] at h
    obtain ⟨rfl, rfl⟩ := h
    simp
  | cons op ops ih =>
    intro cards d rem h
    simp only [runOps] at h
    split at h
    · exact absurd h (by simp)
    case h_2 c d1 hop =>
      split at h
      · exact absurd h (by simp)
      case h_2 d2 rem2 hops =>
        simp only [Option.some.injEq, Prod.mk.injEq] at h
        obtain ⟨rfl, rfl⟩ := h
        have hperm1 : cards.Perm (c :: d1) := by
          cases op with
          | pickOp nm => exact (pick_some_spec cards nm c d1 hop).2.2
          | dealOp k => exact (deal_some_spec hop).2.1
        exact hperm1.trans ((ih d1 d2 rem2 hops).cons c)

theorem deck_init_length (nr ns : Nat) : (deck_init nr ns).length = nr * ns := by
  simp only [deck_init, List.length_flatMap, Function.comp_def, List.length_map,
    List.length_range, List.map_const', List.sum_replicate, smul_eq_mul]
  exact Nat.mul_comm ns nr

theorem deck_init_nodup (nr ns : Nat) : (deck_init nr ns).Nodup := by
  rw [deck_init, List.nodup_flatMap]
  constructor
  · intro i _
    refine List.Nodup.map ?_ (List.nodup_range _)
    intro a b hab
    simp only [Card.mk.injEq] at hab
    omega
  · refine (List.pairwise_lt_range _).imp ?_
    intro i j hij
    simp only [Function.onFun, List.disjoint_left]
    rintro c hci hcj
    simp only [List.mem_map, List.mem_range] at hci hcj
    obtain ⟨a, _, rfl⟩ := hci
    obtain ⟨b, _, hb⟩ := hcj
    simp only [Card.mk.injEq] at hb
    omega

theorem deck_init_mem (nr ns : Nat) (c : Card) :
    c ∈ deck_init nr ns ↔
      15 - (nr : Int) ≤ c.rank ∧ c.rank ≤ 14 ∧ 1 ≤ c.suit ∧ c.suit ≤ (ns : Int) := by
  simp only [deck_init, List.mem_flatMap, List.mem_map, List.mem_range]
  constructor
  · rintro ⟨i, hi, j, hj, rfl⟩
    dsimp only
    refine ⟨by omega, by omega, by omega, by omega⟩
  · rintro ⟨h1, h2, h3, h4⟩
    refine ⟨(c.suit - 1).toNat, by omega, (c.rank - (15 - (nr : Int))).toNat,
      by omega, ?_⟩
    obtain ⟨cr, cs⟩ := c
    simp only [Card.mk.injEq]
    simp only at h1 h2 h3 h4
    constructor <;> omega

/-- Claim C7: a deck constructed with `(num_ranks, num_suits)` contains
exactly the `num_ranks * num_suits` distinct cards with ranks
`15 - num_ranks .. 14` and suits `1 .. num_suits`; and after every finite
sequence of successful `pick`/`deal` operations the remaining deck contains
exactly the initial card set minus the removed cards, with no duplicate
card. -/
theorem c7_deck_invariant (nr ns : Nat) (ops : List DeckOp) (d rem : List Card)
    (h : runOps (deck_init nr ns) ops = some (d, rem)) :
    (deck_init nr ns).length = nr * ns ∧
    (deck_init nr ns).Nodup ∧
    (∀ c, c ∈ deck_init nr ns ↔
      15 - (nr : Int) ≤ c.rank ∧ c.rank ≤ 14 ∧ 1 ≤ c.suit ∧ c.suit ≤ (ns : Int)) ∧
    d.Nodup ∧
    (∀ c, c ∈ d ↔ c ∈ deck_init nr ns ∧ c ∉ rem) := by
  have hperm := runOps_some_perm ops (deck_init nr ns) d rem h
  have hnodup : (rem ++ d).Nodup := hperm.nodup (deck_init_nodup nr ns)
  refine ⟨deck_init_length nr ns, deck_init_nodup nr ns, deck_init_mem nr ns, ?_, ?_⟩
  · exact (List.nodup_append.mp hnodup).2.1
  · intro c
    constructor
    · intro hc
      refine ⟨hperm.mem_iff.mpr (List.mem_append_right _ hc), ?_⟩
      intro hcrem
      exact (List.nodup_append.mp hnodup).2.2 hcrem hc
    · rintro ⟨hinit, hnotrem⟩
      rcases List.mem_append.mp (hperm.mem_iff.mp hinit) with h' | h'
      · exact absurd h' hnotrem
      · exact h'

/-- Claim C7 witness: a 2-rank, 2-suit deck (Kc, Ac, Kd, Ad); picking Ac and
then dealing at index 0 leaves a 2-card duplicate-free deck equal to the
initial set minus the two removed cards. -/
theorem c7_deck_invariant_witness :
    (deck_init 2 2).length = 2 * 2 ∧
    (deck_init 2 2).Nodup ∧
    (∀ c, c ∈ deck_init 2 2 ↔
      15 - (2 : Int) ≤ c.rank ∧ c.rank ≤ 14 ∧ 1 ≤ c.suit ∧ c.suit ≤ (2 : Int)) ∧
    ([⟨14, 1⟩, ⟨14, 2⟩] : List Card).Nodup ∧
    (∀ c, c ∈ ([⟨14, 1⟩, ⟨14, 2⟩] : List Card) ↔
      c ∈ deck_init 2 2 ∧ c ∉ ([⟨13, 1⟩, ⟨13, 2⟩] : List Card)) := by
  have := c7_deck_invariant 2 2 [DeckOp.pickOp ("Kc"), DeckOp.dealOp 1]
    [⟨14, 1⟩, ⟨14, 2⟩] [⟨13, 1⟩, ⟨13, 2⟩] (by decide)
  exact this

/-- Claim C8: `Deck.pick(name)` fails exactly when no card with that name is
in the deck (the error propagates before any mutation, so the deck is then
unchanged); on success it removes and returns exactly a card with that name.
`Deck.deal()` fails exactly when the deck is empty; on success it removes
and returns a card of the deck, shrinking it by exactly one. -/
theorem c8_pick_deal_contract (cards : List Card) (n : String) (k : Nat) :
    (Deck.pick cards n = none ↔ ∀ c ∈ cards, Card.name c ≠ some n) ∧
    (∀ c d, Deck.pick cards n = some (c, d) →
      Card.name c = some n ∧ c ∈ cards ∧ cards.Perm (c :: d)) ∧
    (Deck.deal cards k = none ↔ cards = []) ∧
    (∀ c d, Deck.deal cards k = some (c, d) →
      c ∈ cards ∧ cards.Perm (c :: d) ∧ d.length + 1 = cards.length) := by
  refine ⟨pick_none_iff cards n, ?_, deal_none_iff cards k, ?_⟩
  · intro c d h
    exact pick_some_spec cards n c d h
  · intro c d h
    exact deal_some_spec h

/-! ### Straight classification (claim C3) -/

theorem rank_counts_of_nodup (ranks : List Int) (hnd : ranks.Nodup) :
    rank_counts ranks = ranks.map fun x => (x, 1) := by
  unfold rank_counts
  rw [List.dedup_eq_self.mpr hnd]
  apply List.map_congr_left
  intro x hx
  rw [List.count_eq_one_of_mem hnd hx]

theorem orc_perm (ranks : List Int) (hnd : ranks.Nodup) :
    (ordered_ranks_counts ranks).Perm (ranks.map fun x => (x, 1)) := by
  unfold ordered_ranks_counts
  rw [rank_counts_of_nodup ranks hnd]
  exact List.perm_insertionSort groupLE _

theorem orc_sorted (ranks : List Int) :
    List.Sorted groupLE (ordered_ranks_counts ranks) :=
  List.sorted_insertionSort groupLE _

theorem orc_five (cards : List Card) (hlen : cards.length = 5)
    (hnd : (cards.map Card.rank).Nodup) :
    ∃ p0 p1 p2 p3 p4 : Int × Nat,
      ordered_ranks_counts (cards.map Card.rank) = [p0, p1, p2, p3, p4] ∧
      p0.2 = 1 ∧ p1.2 = 1 ∧ p2.2 = 1 ∧ p3.2 = 1 ∧ p4.2 = 1 ∧
      ([p0.1, p1.1, p2.1, p3.1, p4.1]).Perm (cards.map Card.rank) ∧
      p1.1 < p0.1 ∧ p2.1 < p1.1 ∧ p3.1 < p2.1 ∧ p4.1 < p3.1 := by
  have hperm := orc_perm (cards.map Card.rank) hnd
  have hsorted := orc_sorted (cards.map Card.rank)
  have hlen5 : (ordered_ranks_counts (cards.map Card.rank)).length = 5 := by
    rw [hperm.length_eq, List.length_map, List.length_map, hlen]
  have hcnt : ∀ p ∈ ordered_ranks_counts (cards.map Card.rank), p.2 = 1 := by
    intro p hp
    have := hperm.mem_iff.mp hp
    simp only [List.mem_map] at this
    obtain ⟨x, _, rfl⟩ := this
    rfl
  set g := ordered_ranks_counts (cards.map Card.rank) with hg
  clear_value g
  rcases g with _ | ⟨p0, _ | ⟨p1, _ | ⟨p2, _ | ⟨p3, _ | ⟨p4, _ | ⟨p5, t⟩⟩⟩⟩⟩⟩ <;>
    simp at hlen5
  refine ⟨p0, p1, p2, p3, p4, rfl, ?_, ?_, ?_, ?_, ?_, ?_, ?_, ?_, ?_, ?_⟩
  · exact hcnt p0 (by simp)
  · exact hcnt p1 (by simp)
  · exact hcnt p2 (by simp)
  · exact hcnt p3 (by simp)
  · exact hcnt p4 (by simp)
  · -- rank components perm
    have := hperm.map Prod.fst
    simp only [List.map_map] at this
    simpa using this
  all_goals {
    obtain ⟨h0, hs1⟩ := List.sorted_cons.mp hsorted
    obtain ⟨h1, hs2⟩ := List.sorted_cons.mp hs1
    obtain ⟨h2, hs3⟩ := List.sorted_cons.mp hs2
    obtain ⟨h3, _⟩ := List.sorted_cons.mp hs3
    have h01 := h0 p1 (by simp)
    have h12 := h1 p2 (by simp)
    have h23 := h2 p3 (by simp)
    have h34 := h3 p4 (by simp)
    have hnd2 : ([p0.1, p1.1, p2.1, p3.1, p4.1]).Nodup := by
      have hmap := (hperm.map Prod.fst)
      simp only [List.map_map] at hmap
      have h2 : ([p0, p1, p2, p3, p4].map Prod.fst).Nodup := by
        refine (hmap.nodup_iff).mpr ?_
        simpa using hnd
      simpa using h2
    simp only [List.nodup_cons, List.mem_cons, List.not_mem_nil, not_or,
      List.nodup_nil, and_true, not_false_eq_true] at hnd2
    have c0 := hcnt p0 (by simp)
    have c1 := hcnt p1 (by simp)
    have c2 := hcnt p2 (by simp)
    have c3 := hcnt p3 (by simp)
    have c4 := hcnt p4 (by simp)
    unfold groupLE at h01 h12 h23 h34
    omega
  }

theorem ghr_of_straight (w : Option (List Int)) (cards : List Card) (s : Int)
    (hs : straight_top w (ordered_ranks_counts (cards.map Card.rank)) = some s) :
    ((get_hand_ranking w cards).getD 0 0 = 9 ∨ (get_hand_ranking w cards).getD 0 0 = 5) ∧
    (get_hand_ranking w cards).getD 1 0 = s := by
  simp only [get_hand_ranking]
  split <;> simp_all

theorem ghr_of_not_straight (w : Option (List Int)) (cards : List Card)
    (hs : straight_top w (ordered_ranks_counts (cards.map Card.rank)) = none) :
    (get_hand_ranking w cards).getD 0 0 ≠ 5 ∧ (get_hand_ranking w cards).getD 0 0 ≠ 9 := by
  simp only [get_hand_ranking]
  split
  · simp_all
  · simp_all
  · simp_all
  · split_ifs <;> simp_all

theorem straight_top_char (r : Int) (hr : r + 4 < 14) (cards : List Card)
    (hlen : cards.length = 5) (hnd : (cards.map Card.rank).Nodup) :
    ((∃ s, straight_top (some [14, r + 3, r + 2, r + 1, r])
        (ordered_ranks_counts (cards.map Card.rank)) = some s) ↔
      ((∃ M m : Int, (cards.map Card.rank).maximum = (M : WithBot Int) ∧
          (cards.map Card.rank).minimum = (m : WithTop Int) ∧ M - m = 4) ∨
        (cards.map Card.rank).Perm [14, r + 3, r + 2, r + 1, r])) ∧
    ((cards.map Card.rank).Perm [14, r + 3, r + 2, r + 1, r] →
      straight_top (some [14, r + 3, r + 2, r + 1, r])
        (ordered_ranks_counts (cards.map Card.rank)) = some (r + 3)) := by
  obtain ⟨p0, p1, p2, p3, p4, hg, c0, c1, c2, c3, c4, hperm, s01, s12, s23, s34⟩ :=
    orc_five cards hlen hnd
  have hmax : (cards.map Card.rank).maximum = (p0.1 : WithBot Int) := by
    rw [List.maximum_eq_coe_iff]
    constructor
    · exact hperm.mem_iff.mp (by simp)
    · intro a ha
      have := hperm.mem_iff.mpr ha
      simp only [List.mem_cons, List.not_mem_nil, or_false] at this
      rcases this with rfl | rfl | rfl | rfl | rfl <;> omega
  have hmin : (cards.map Card.rank).minimum = (p4.1 : WithTop Int) := by
    rw [List.minimum_eq_coe_iff]
    constructor
    · exact hperm.mem_iff.mp (by simp)
    · intro a ha
      have := hperm.mem_iff.mpr ha
      simp only [List.mem_cons, List.not_mem_nil, or_false] at this
      rcases this with rfl | rfl | rfl | rfl | rfl <;> omega
  have hlisteq : [p0.1, p1.1, p2.1, p3.1, p4.1] = [14, r + 3, r + 2, r + 1, r] ↔
      (cards.map Card.rank).Perm [14, r + 3, r + 2, r + 1, r] := by
    constructor
    · intro h
      exact (hperm.symm.trans (h ▸ List.Perm.refl _))
    · intro h
      haveI : IsAntisymm Int (fun a b : Int => a > b) :=
        ⟨fun a b h1 h2 => absurd h1 (by omega)⟩
      have hs1 : List.Sorted (fun a b : Int => a > b) [p0.1, p1.1, p2.1, p3.1, p4.1] := by
        simp only [List.Sorted, List.pairwise_cons, List.mem_cons,
          List.not_mem_nil, or_false, forall_eq_or_imp, forall_eq,
          List.Pairwise.nil, and_true, IsEmpty.forall_iff, implies_true]
        omega
      have hs2 : List.Sorted (fun a b : Int => a > b) [14, r + 3, r + 2, r + 1, r] := by
        simp only [List.Sorted, List.pairwise_cons, List.mem_cons,
          List.not_mem_nil, or_false, forall_eq_or_imp, forall_eq,
          List.Pairwise.nil, and_true, IsEmpty.forall_iff, implies_true]
        omega
      exact List.eq_of_perm_of_sorted (hperm.trans h) hs1 hs2
  rw [hg]
  constructor
  · constructor
    · rintro ⟨s, hs⟩
      by_cases h4 : p0.1 - p4.1 = 4
      · left
        exact ⟨p0.1, p4.1, hmax, hmin, h4⟩
      · by_cases hws : [p0.1, p1.1, p2.1, p3.1, p4.1] = [14, r + 3, r + 2, r + 1, r]
        · right
          exact hlisteq.mp hws
        · exfalso
          simp only [straight_top, if_neg h4, if_neg hws] at hs
          exact absurd hs (by simp)
    · rintro (⟨M, m, hM, hm, hMm⟩ | hws)
      · rw [hmax] at hM
        rw [hmin] at hm
        have hM' : M = p0.1 := by exact_mod_cast (WithBot.coe_inj.mp hM.symm)
        have hm' : m = p4.1 := by exact_mod_cast (WithBot.coe_inj.mp hm.symm)
        subst hM'
        subst hm'
        refine ⟨p0.1, ?_⟩
        simp only [straight_top, if_pos hMm]
      · by_cases h4 : p0.1 - p4.1 = 4
        · exact ⟨p0.1, by simp only [straight_top, if_pos h4]⟩
        · refine ⟨p1.1, ?_⟩
          have hl := hlisteq.mpr hws
          simp only [straight_top, if_neg h4, if_pos hl]
  · intro hws
    have hl := hlisteq.mpr hws
    simp only [List.cons.injEq, and_true] at hl
    obtain ⟨hp0, hp1, hp2, hp3, hp4⟩ := hl
    have h4 : ¬(p0.1 - p4.1 = 4) := by omega
    simp only [straight_top, if_neg h4]
    rw [hp0, hp1, hp2, hp3, hp4]
    simp

/-- Claim C3: for every 5-card hand with 5 distinct ranks and wheel ranks
configured as `[14, r+3, r+2, r+1, r]` for a lowest rank `r` (with 14 not
among the four low ranks and the wheel distinct from a broadway run, i.e.
`r + 4 < 14`; the source configures `r = 2`), the hand is classified as a
straight (category 5, or 9 when also a flush) iff either max rank minus min
rank is 4 or the rank multiset is exactly {14, r, r+1, r+2, r+3}; in the
wheel case the top-card tiebreak is `r+3`, not 14; and with the wheel
disabled (`WHEEL_RANKS = None`) the hand 5h 4d 3c 2s Ah is category 1
(high card, ace high). -/
theorem c3_straight_classification (r : Int) (hr : r + 4 < 14) (cards : List Card)
    (hlen : cards.length = 5) (hnd : (cards.map Card.rank).Nodup) :
    (((get_hand_ranking (some [14, r + 3, r + 2, r + 1, r]) cards).getD 0 0 = 5 ∨
      (get_hand_ranking (some [14, r + 3, r + 2, r + 1, r]) cards).getD 0 0 = 9) ↔
      ((∃ M m : Int, (cards.map Card.rank).maximum = (M : WithBot Int) ∧
          (cards.map Card.rank).minimum = (m : WithTop Int) ∧ M - m = 4) ∨
        (cards.map Card.rank).Perm [14, r + 3, r + 2, r + 1, r])) ∧
    ((cards.map Card.rank).Perm [14, r + 3, r + 2, r + 1, r] →
      (get_hand_ranking (some [14, r + 3, r + 2, r + 1, r]) cards).getD 1 0 = r + 3 ∧
      (get_hand_ranking (some [14, r + 3, r + 2, r + 1, r]) cards).getD 1 0 ≠ 14) ∧
    get_hand_ranking none [⟨5, 3⟩, ⟨4, 2⟩, ⟨3, 1⟩, ⟨2, 4⟩, ⟨14, 3⟩] =
      [1, 14, 5, 4, 3, 2] := by
  obtain ⟨hiff, hwheel⟩ := straight_top_char r hr cards hlen hnd
  refine ⟨?_, ?_, by decide⟩
  · constructor
    · intro h5
      apply hiff.mp
      cases hst : straight_top (some [14, r + 3, r + 2, r + 1, r])
          (ordered_ranks_counts (cards.map Card.rank)) with
      | none =>
        have hnot := ghr_of_not_straight (some [14, r + 3, r + 2, r + 1, r]) cards hst
        rcases h5 with h | h
        · exact absurd h hnot.1
        · exact absurd h hnot.2
      | some s => exact ⟨s, rfl⟩
    · intro hrhs
      obtain ⟨s, hs⟩ := hiff.mpr hrhs
      have hgh := ghr_of_straight (some [14, r + 3, r + 2, r + 1, r]) cards s hs
      tauto
  · intro hws
    have hst := hwheel hws
    have hgh := ghr_of_straight (some [14, r + 3, r + 2, r + 1, r]) cards (r + 3) hst
    refine ⟨hgh.2, ?_⟩
    rw [hgh.2]
    omega

/-- Claim C3 witness: the standard wheel configuration `r = 2` and the hand
Ac 5d 4h 3s 2c; the straight top-card tiebreak is 5, not 14. -/
theorem c3_straight_classification_witness :
    (get_hand_ranking (some [14, 2 + 3, 2 + 2, 2 + 1, 2])
      [⟨14, 1⟩, ⟨5, 2⟩, ⟨4, 3⟩, ⟨3, 4⟩, ⟨2, 1⟩]).getD 1 0 = 2 + 3 ∧
    (get_hand_ranking (some [14, 2 + 3, 2 + 2, 2 + 1, 2])
      [⟨14, 1⟩, ⟨5, 2⟩, ⟨4, 3⟩, ⟨3, 4⟩, ⟨2, 1⟩]).getD 1 0 ≠ 14 :=
  (c3_straight_classification 2 (by decide)
    [⟨14, 1⟩, ⟨5, 2⟩, ⟨4, 3⟩, ⟨3, 4⟩, ⟨2, 1⟩] (by decide) (by decide)).2.1
    (by decide)


/-! ### Permutation invariance (claim C10) -/

theorem is_flush_iff (cards : List Card) :
    is_flush cards = true ↔ ∀ a ∈ cards, ∀ b ∈ cards, a.suit = b.suit := by
  induction cards with
  | nil => simp [is_flush]
  | cons c1 rest ih =>
    cases rest with
    | nil => simp [is_flush]
    | cons c2 rest2 =>
      simp only [is_flush, Bool.and_eq_true, beq_iff_eq]
      rw [ih]
      constructor
      · rintro ⟨h12, hall⟩ a ha b hb
        have key : ∀ x ∈ c1 :: c2 :: rest2, x.suit = c2.suit := by
          intro x hx
          rcases List.mem_cons.mp hx with rfl | hx'
          · exact h12
          · exact hall x hx' c2 (List.mem_cons_self _ _)
        rw [key a ha, key b hb]
      · intro hall
        refine ⟨hall c1 (by simp) c2 (by simp), fun a ha b hb => ?_⟩
        exact hall a (List.mem_cons_of_mem _ ha) b (List.mem_cons_of_mem _ hb)

theorem is_flush_perm (cards cards' : List Card) (hp : cards.Perm cards') :
    is_flush cards = is_flush cards' := by
  have hiff : (is_flush cards = true) ↔ (is_flush cards' = true) := by
    rw [is_flush_iff, is_flush_iff]
    constructor
    · intro h a ha b hb
      exact h a (hp.mem_iff.mpr ha) b (hp.mem_iff.mpr hb)
    · intro h a ha b hb
      exact h a (hp.mem_iff.mp ha) b (hp.mem_iff.mp hb)
  cases hb1 : is_flush cards <;> cases hb2 : is_flush cards' <;> simp_all

theorem orc_perm_eq (l l' : List Int) (hp : l.Perm l') :
    ordered_ranks_counts l = ordered_ranks_counts l' := by
  have hfun : (fun r => (r, l.count r)) = (fun r => (r, l'.count r)) := by
    funext r
    rw [hp.count_eq]
  have hperm : (rank_counts l).Perm (rank_counts l') := by
    unfold rank_counts
    rw [hfun]
    exact (hp.dedup).map _
  exact List.eq_of_perm_of_sorted
    (((List.perm_insertionSort groupLE _).trans hperm).trans
      (List.perm_insertionSort groupLE _).symm)
    (List.sorted_insertionSort groupLE _)
    (List.sorted_insertionSort groupLE _)

/-- Claim C10: `get_hand_ranking` is invariant under permutation of its
input: for every 5-card hand and every reordering of those same 5 cards the
full 6-entry ranking key is identical, and consequently `compare` against
any other hand does not depend on the order in which the hand's cards are
listed. -/
theorem c10_ranking_perm_invariant (w : Option (List Int)) (cards cards' : List Card)
    (hlen : cards.length = 5) (hp : cards.Perm cards') :
    get_hand_ranking w cards = get_hand_ranking w cards' ∧
    ∀ other : List Card,
      cmpR (get_hand_ranking w cards) (get_hand_ranking w other) =
        cmpR (get_hand_ranking w cards') (get_hand_ranking w other) := by
  have hranks : (cards.map Card.rank).Perm (cards'.map Card.rank) := hp.map _
  have horc := orc_perm_eq _ _ hranks
  have hfl := is_flush_perm cards cards' hp
  have heq : get_hand_ranking w cards = get_hand_ranking w cards' := by
    simp only [get_hand_ranking]
    rw [horc, hfl]
  exact ⟨heq, fun other => by rw [heq]⟩

/-- Claim C10 witness: the royal flush hand listed in two different orders
has the same ranking key. -/
theorem c10_ranking_perm_invariant_witness :
    get_hand_ranking WHEEL_RANKS
        [⟨14, 4⟩, ⟨13, 4⟩, ⟨12, 4⟩, ⟨11, 4⟩, ⟨10, 4⟩] =
      get_hand_ranking WHEEL_RANKS
        [⟨10, 4⟩, ⟨12, 4⟩, ⟨14, 4⟩, ⟨11, 4⟩, ⟨13, 4⟩] ∧
    ∀ other : List Card,
      cmpR (get_hand_ranking WHEEL_RANKS
          [⟨14, 4⟩, ⟨13, 4⟩, ⟨12, 4⟩, ⟨11, 4⟩, ⟨10, 4⟩])
        (get_hand_ranking WHEEL_RANKS other) =
      cmpR (get_hand_ranking WHEEL_RANKS
          [⟨10, 4⟩, ⟨12, 4⟩, ⟨14, 4⟩, ⟨11, 4⟩, ⟨13, 4⟩])
        (get_hand_ranking WHEEL_RANKS other) :=
  c10_ranking_perm_invariant WHEEL_RANKS
    [⟨14, 4⟩, ⟨13, 4⟩, ⟨12, 4⟩, ⟨11, 4⟩, ⟨10, 4⟩]
    [⟨10, 4⟩, ⟨12, 4⟩, ⟨14, 4⟩, ⟨11, 4⟩, ⟨13, 4⟩] (by decide) (by decide)



/-! ### Trial isolation (claim C9)

The mutable Python objects a trial touches are modelled by an explicit
store: one slot per `Deck` (its `cards` array), per `Board` (its 9 cells,
row-major), and per `Player` (its 4 hole-card slots).  `Question` holds
references into the store; `Trial.__init__`'s `copy.deepcopy` allocates
fresh slots holding equal values, and `Trial.run` writes only through the
trial's own references. -/

/-- References held by a `Question` or a `Trial`: its deck, its board and
its players' hole-card arrays. -/
structure Refs where
  deckRef : Nat
  boardRef : Nat
  playerRefs : List Nat
deriving DecidableEq, Repr

/-- The store of all mutable card containers. -/
structure Store where
  decks : List (List Card)
  boards : List (List (Option Card))
  holes : List (List (Option Card))
deriving DecidableEq, Repr

/-- Write a deck slot. -/
def setDeck (σ : Store) (i : Nat) (v : List Card) : Store :=
  { σ with decks := σ.decks.set i v }

/-- Write a board slot. -/
def setBoard (σ : Store) (i : Nat) (v : List (Option Card)) : Store :=
  { σ with boards := σ.boards.set i v }

/-- Write a hole-cards slot. -/
def setHole (σ : Store) (i : Nat) (v : List (Option Card)) : Store :=
  { σ with holes := σ.holes.set i v }

/-- `Trial.__init__` (src/main.py lines 326-330): `copy.deepcopy` of the
players, board and deck — fresh store slots (at the ends of the three
stores) holding copies of the question's current values, and references to
them. -/
def trial_mk (q : Refs) (σ : Store) : Refs × Store :=
  (⟨σ.decks.length, σ.boards.length,
    (List.range q.playerRefs.length).map fun t => σ.holes.length + t⟩,
   ⟨σ.decks ++ [σ.decks.getD q.deckRef []],
    σ.boards ++ [σ.boards.getD q.boardRef []],
    σ.holes ++ q.playerRefs.map fun pr => σ.holes.getD pr []⟩)

/-- The cell-filling loops of `Trial.run` (src/main.py lines 338-341 and
346-348): walk the slots in order, deal into each empty one; the dealt deck
is threaded through and the concrete slot values are returned.  An
exhausted deck (the raised exception) yields `none`. -/
def fillSlots (rand : Nat → Nat) : List (Option Card) → List Card → Nat →
    Option (List Card × List Card × Nat)
  | [], deck, t => some ([], deck, t)
  | some c :: rest, deck, t =>
    match fillSlots rand rest deck t with
    | none => none
    | some (cs, deck2, t2) => some (c :: cs, deck2, t2)
  | none :: rest, deck, t =>
    match Deck.deal deck (rand t) with
    | none => none
    | some (c, deck1) =>
      match fillSlots rand rest deck1 (t + 1) with
      | none => none
      | some (cs, deck2, t2) => some (c :: cs, deck2, t2)

/-- `Board.generate_board_combos` on a flat row-major 9-cell list; the board
is always 3x3 in the source, so the catch-all never fires there. -/
def board_combos_of : List Card → List (List Card)
  | [b00, b01, b02, b10, b11, b12, b20, b21, b22] =>
    generate_board_combos b00 b01 b02 b10 b11 b12 b20 b21 b22
  | _ => []

/-- `Player.generate_hole_cards_combos` on a 4-card list; players always
hold 4 cards in the source, so the catch-all never fires there. -/
def hole_combos_of : List Card → List (List Card)
  | [h0, h1, h2, h3] => generate_hole_cards_combos h0 h1 h2 h3
  | _ => []

/-- A player's best-hand ranking (src/main.py lines 349-350). -/
def player_best_ranking (wheel : Option (List Int)) (holes : List Card)
    (bcombos : List (List Card)) : List Int :=
  match generate_showdown_hand wheel (hole_combos_of holes) bcombos with
  | some best => get_hand_ranking wheel best
  | none => []

/-- The player loop of `Trial.run` (src/main.py lines 345-350): for each
player reference in order, fill the empty hole slots from the deck, write
the filled array back to that player's slot, and record the player's number
and best-hand ranking. -/
def run_players (wheel : Option (List Int)) (rand : Nat → Nat)
    (bcombos : List (List Card)) :
    List Nat → Store → List Card → Nat → Nat → List PlayerR →
    Option (Store × List Card × Nat × List PlayerR)
  | [], σ, deck, t, _, acc => some (σ, deck, t, acc)
  | pr :: rest, σ, deck, t, num, acc =>
    match fillSlots rand (σ.holes.getD pr []) deck t with
    | none => none
    | some (hcards, deck2, t2) =>
      run_players wheel rand bcombos rest
        (setHole σ pr (hcards.map some)) deck2 t2 (num + 1)
        (acc ++ [⟨num, player_best_ranking wheel hcards bcombos⟩])

/-- `Trial.run` (src/main.py lines 332-361) over the store: fill the board,
fill every player's holes, write the mutated containers back through the
trial's own references, and return the showdown winner list.  The deck is
written back once with its final value; the source reassigns it after each
deal, but the resulting store is the same. -/
def trial_run (wheel : Option (List Int)) (t : Refs) (σ : Store)
    (rand : Nat → Nat) (t0 : Nat) : Option (Store × List PlayerR) :=
  match fillSlots rand (σ.boards.getD t.boardRef []) (σ.decks.getD t.deckRef []) t0 with
  | none => none
  | some (bcards, deck1, t1) =>
    match run_players wheel rand (board_combos_of bcards) t.playerRefs
        (setBoard σ t.boardRef (bcards.map some)) deck1 t1 1 [] with
    | none => none
    | some (σ2, deck2, _, players) =>
      some (setDeck σ2 t.deckRef deck2, trial_showdown players)

theorem store_getD_set_ne {α : Type} (l : List α) (i j : Nat) (v d : α)
    (h : j ≠ i) : (l.set i v).getD j d = l.getD j d := by
  simp [List.getD_eq_getElem?_getD, List.getElem?_set_ne (Ne.symm h)]

theorem store_getD_append {α : Type} (l l2 : List α) (j : Nat) (d : α)
    (h : j < l.length) : (l ++ l2).getD j d = l.getD j d := by
  rw [List.getD_eq_getElem?_getD, List.getD_eq_getElem?_getD,
    List.getElem?_append, if_pos h]

theorem run_players_frame (wheel : Option (List Int)) (rand : Nat → Nat)
    (bcombos : List (List Card)) :
    ∀ (prs : List Nat) (σ : Store) (deck : List Card) (t num : Nat)
      (acc : List PlayerR) (σ2 : Store) (deck2 : List Card) (t2 : Nat)
      (acc2 : List PlayerR),
      run_players wheel rand bcombos prs σ deck t num acc =
        some (σ2, deck2, t2, acc2) →
      σ2.decks = σ.decks ∧ σ2.boards = σ.boards ∧
      ∀ j, j ∉ prs → σ2.holes.getD j [] = σ.holes.getD j [] := by
  intro prs
  induction prs with
  | nil =>
    intro σ deck t num acc σ2 deck2 t2 acc2 h
    simp only [run_players, Option.some.injEq, Prod.mk.injEq] at h
    obtain ⟨rfl, -, -, -⟩ := h
    exact ⟨rfl, rfl, fun j _ => rfl⟩
  | cons pr rest ih =>
    intro σ deck t num acc σ2 deck2 t2 acc2 h
    simp only [run_players] at h
    split at h
    · exact absurd h (by simp)
    case h_2 hcards deck1 t1 heq =>
      obtain ⟨hd, hb, hh⟩ := ih (setHole σ pr (hcards.map some)) deck1 t1
        (num + 1) (acc ++ [⟨num, player_best_ranking wheel hcards bcombos⟩])
        σ2 deck2 t2 acc2 h
      refine ⟨hd, hb, fun j hj => ?_⟩
      have hj1 : j ∉ rest := fun hr => hj (List.mem_cons_of_mem _ hr)
      have hj2 : j ≠ pr := fun hr => hj (hr ▸ List.mem_cons_self _ _)
      rw [hh j hj1]
      exact store_getD_set_ne σ.holes pr j (hcards.map some) [] hj2

theorem trial_run_frame (wheel : Option (List Int)) (t : Refs) (σ : Store)
    (rand : Nat → Nat) (t0 : Nat) (σf : Store) (winners : List PlayerR)
    (h : trial_run wheel t σ rand t0 = some (σf, winners)) :
    (∀ j, j ≠ t.deckRef → σf.decks.getD j [] = σ.decks.getD j []) ∧
    (∀ j, j ≠ t.boardRef → σf.boards.getD j [] = σ.boards.getD j []) ∧
    (∀ j, j ∉ t.playerRefs → σf.holes.getD j [] = σ.holes.getD j []) := by
  simp only [trial_run] at h
  split at h
  · exact absurd h (by simp)
  case h_2 bcards deck1 t1 heq =>
    split at h
    · exact absurd h (by simp)
    case h_2 σ2 deck2 tl players heq2 =>
      simp only [Option.some.injEq, Prod.mk.injEq] at h
      obtain ⟨rfl, rfl⟩ := h
      obtain ⟨hd, hb, hh⟩ := run_players_frame wheel rand (board_combos_of bcards)
        t.playerRefs (setBoard σ t.boardRef (bcards.map some)) deck1 t1 1 []
        σ2 deck2 tl players heq2
      refine ⟨fun j hj => ?_, fun j hj => ?_, fun j hj => ?_⟩
      · rw [show (setDeck σ2 t.deckRef deck2).decks = σ2.decks.set t.deckRef deck2
          from rfl]
        rw [store_getD_set_ne σ2.decks t.deckRef j deck2 [] hj, hd]
        rfl
      · rw [show (setDeck σ2 t.deckRef deck2).boards = σ2.boards from rfl, hb]
        exact store_getD_set_ne σ.boards t.boardRef j (bcards.map some) [] hj
      · rw [show (setDeck σ2 t.deckRef deck2).holes = σ2.holes from rfl]
        rw [hh j hj]
        rfl

/-- Claim C9: running one `Trial` (deep-copy construction followed by
`run`) never modifies the `Question`'s template state: for every store, any
valid question references, and any randomness, after a successful trial the
question's deck, board, and every player's hole cards read back unchanged —
so each of the N trials in `Question.answer` starts from the same template
deck, board and players. -/
theorem c9_trial_preserves_template (wheel : Option (List Int)) (q : Refs)
    (σ : Store) (rand : Nat → Nat) (t0 : Nat) (σf : Store)
    (winners : List PlayerR)
    (hd : q.deckRef < σ.decks.length) (hb : q.boardRef < σ.boards.length)
    (hp : ∀ pr ∈ q.playerRefs, pr < σ.holes.length)
    (h : trial_run wheel (trial_mk q σ).1 (trial_mk q σ).2 rand t0 =
      some (σf, winners)) :
    σf.decks.getD q.deckRef [] = σ.decks.getD q.deckRef [] ∧
    σf.boards.getD q.boardRef [] = σ.boards.getD q.boardRef [] ∧
    ∀ pr ∈ q.playerRefs, σf.holes.getD pr [] = σ.holes.getD pr [] := by
  obtain ⟨hfd, hfb, hfh⟩ := trial_run_frame wheel (trial_mk q σ).1
    (trial_mk q σ).2 rand t0 σf winners h
  refine ⟨?_, ?_, ?_⟩
  · rw [hfd q.deckRef (by
      simp only [trial_mk]
      omega)]
    simp only [trial_mk]
    exact store_getD_append σ.decks _ q.deckRef [] hd
  · rw [hfb q.boardRef (by
      simp only [trial_mk]
      omega)]
    simp only [trial_mk]
    exact store_getD_append σ.boards _ q.boardRef [] hb
  · intro pr hpr
    have hlt := hp pr hpr
    rw [hfh pr (by
      simp only [trial_mk, List.mem_map, List.mem_range]
      rintro ⟨x, -, rfl⟩
      omega)]
    simp only [trial_mk]
    exact store_getD_append σ.holes _ pr [] hlt



/-- A concrete one-player template for the claim C9 witness: a one-card
deck, a fully concrete board and fully concrete hole cards. -/
def witness_store : Store :=
  ⟨[[⟨7, 1⟩]],
   [[some ⟨2, 1⟩, some ⟨3, 2⟩, some ⟨4, 3⟩, some ⟨5, 4⟩, some ⟨6, 1⟩,
     some ⟨7, 2⟩, some ⟨8, 3⟩, some ⟨9, 4⟩, some ⟨10, 1⟩]],
   [[some ⟨11, 1⟩, some ⟨12, 2⟩, some ⟨13, 3⟩, some ⟨14, 4⟩]]⟩

/-- The question's references into `witness_store`. -/
def witness_refs : Refs := ⟨0, 0, [0]⟩

/-- Claim C9 witness: one concrete trial (deep copy plus run) leaves the
question's deck, board and hole cards unchanged in the store. -/
theorem c9_trial_preserves_template_witness :
    (trial_mk witness_refs witness_store).2.decks.getD witness_refs.deckRef [] =
      witness_store.decks.getD witness_refs.deckRef [] ∧
    (trial_mk witness_refs witness_store).2.boards.getD witness_refs.boardRef [] =
      witness_store.boards.getD witness_refs.boardRef [] ∧
    ∀ pr ∈ witness_refs.playerRefs,
      (trial_mk witness_refs witness_store).2.holes.getD pr [] =
        witness_store.holes.getD pr [] :=
  c9_trial_preserves_template WHEEL_RANKS witness_refs witness_store
    (fun _ => 0) 0 (trial_mk witness_refs witness_store).2
    [⟨1, [5, 12, 0, 0, 0, 0]⟩] (by decide) (by decide) (by decide) (by decide)


end TTTPoker
